import Mathlib

/-!
Verification of the snapper3 hierarchical SNP clustering core.

This file gives a shallow embedding, in exact rational arithmetic, of the
parts of the code that the claims below are about:

  * `lib/ClusterStats.py`           — running cluster statistics,
  * `lib/snapperdb/__init__.py`     — address proposal and z-score checks,
  * `lib/merging/__init__.py`,
    `lib/ClusterMerge.py`           — merge detection,
  * `lib/distances/__init__.py`     — one-to-many distance lists,
  * `lib/SnapperDBInterrogation.py` — k-nearest query,
  * `scripts/remove_sample.py`      — split handling and the distance memo.

Python floats are modelled as `ℚ` (the claims under test are either
order/shape facts that are exact, or are settled by counterexamples whose
rational gap dwarfs any float rounding).  Python 2 integer division, which
the source uses in one place, is modelled faithfully with `Int.fdiv`.
`math.sqrt` only ever appears applied to the tracked variance, so the
embedding carries the variance (`stddev**2`) and treats the standard
deviation as the derived square root: two states agree on stddev exactly
when they agree on the variance field.
-/

namespace Snapper3

/-- Python exceptions that the embedded code can raise. -/
inductive PyErr where
  | keyError : PyErr
  | clusterStatsError : PyErr
  deriving Repr, DecidableEq

/-! ## ClusterStats (`lib/ClusterStats.py`)

State of one `ClusterStats` object.  `mean_pw_dist` and `variance_pw_dist`
are `Option ℚ` because the Python object stores `None` for clusters with
no pairwise distance; `nof_pw_dists` is `ℚ` because the constructor taking
`stddev`/`mean` stores the float `(members*(members-1))/2.0`. -/
structure ClusterStats where
  members : ℕ
  nof_pw_dists : ℚ
  mean_pw_dist : Option ℚ
  variance_pw_dist : Option ℚ
  deriving Repr, DecidableEq

/-- Mean of a list of rationals (`0` for the empty list, which the code
never queries). -/
def listMean (l : List ℚ) : ℚ := l.sum / l.length

/-- Population variance of a list of rationals: mean squared deviation
from `listMean`. -/
def listPopVar (l : List ℚ) : ℚ :=
  ((l.map fun d => (d - listMean l) ^ 2).sum) / l.length

/-- Constructor branch `ClusterStats(members=…, dists=…)`.

Mirrors `__init__` of `lib/ClusterStats.py`: the member/distance
consistency check raises `ClusterStatsError`; for a non-empty distance
list the mean is `float(sum(dists)/len(dists))` — Python 2 *integer*
division, hence `Int.fdiv` — and the variance is the mean squared
deviation from that (floored) mean, computed in float arithmetic. -/
def ClusterStats.ofDists (members : ℕ) (dists : List ℤ) : Except PyErr ClusterStats :=
  if (dists.length : ℚ) ≠ (members * (members - 1) : ℕ) / 2 then
    .error .clusterStatsError
  else if dists.length > 0 then
    let m : ℚ := ((dists.sum.fdiv dists.length : ℤ) : ℚ)
    .ok { members := members
          nof_pw_dists := dists.length
          mean_pw_dist := some m
          variance_pw_dist :=
            some (((dists.map fun d => ((d : ℚ) - m) ^ 2).sum) / dists.length) }
  else
    .ok { members := members
          nof_pw_dists := dists.length
          mean_pw_dist := none
          variance_pw_dist := none }

/-- Constructor branch `ClusterStats(members=…, stddev=…, mean=…)`.

`nof_pw_dists` is the float `(members*(members-1))/2.0`; the variance is
`stddev**2.0`. -/
def ClusterStats.ofMeanStddev (members : ℕ) (mean stddev : ℚ) : ClusterStats :=
  { members := members
    nof_pw_dists := (members * (members - 1) : ℕ) / 2
    mean_pw_dist := some mean
    variance_pw_dist := some (stddev ^ 2) }

/-- One iteration of the `for nd in new_dists` loop of
`ClusterStats.add_member`: state is `(nof_pw_dists, mean, variance)`. -/
def addStep (acc : ℚ × ℚ × ℚ) (nd : ℚ) : ℚ × ℚ × ℚ :=
  let n := acc.1
  let prev_m := acc.2.1
  let v := acc.2.2
  let new_sum := prev_m * n + nd
  let n1 := n + 1
  let mean := new_sum / n1
  ((n1 : ℚ), mean, ((n1 - 1) * v + (nd - mean) * (nd - prev_m)) / n1)

/-- `ClusterStats.add_member(new_dists)` (without the `assert`, which the
theorems carry as the hypothesis `new_dists.length = st.members`).
For `members > 1` the per-distance loop runs; otherwise the one-member
shortcut sets `nof = 1`, `mean = new_dists[0]`, `variance = 0`. -/
def ClusterStats.add_member (st : ClusterStats) (new_dists : List ℚ) : ClusterStats :=
  if st.members > 1 then
    let r := new_dists.foldl addStep
      (st.nof_pw_dists, st.mean_pw_dist.getD 0, st.variance_pw_dist.getD 0)
    { members := st.members + 1
      nof_pw_dists := r.1
      mean_pw_dist := some r.2.1
      variance_pw_dist := some r.2.2 }
  else
    { members := st.members + 1
      nof_pw_dists := 1
      mean_pw_dist := some (new_dists.headD 0)
      variance_pw_dist := some 0 }

/-- Exact inverse of one `addStep`, popping distance `d`. -/
def removeStep (acc : ℚ × ℚ × ℚ) (d : ℚ) : ℚ × ℚ × ℚ :=
  let n := acc.1
  let m := acc.2.1
  let v := acc.2.2
  let prev_m := (m * n - d) / (n - 1)
  ((n - 1 : ℚ), prev_m, (n * v - (d - m) * (d - prev_m)) / (n - 1))

/-- Modelled from the spec: `ClusterStats.remove_member(old_distances)` is
absent from `src/lib/ClusterStats.py` although `scripts/remove_sample.py`
invokes it in three places; §4.4 of the spec defines it as the algebraic
inverse of `add_member`, popping each distance in reverse and reversing
the update, with pre-condition `members ≥ 2`. -/
def ClusterStats.remove_member (st : ClusterStats) (old_dists : List ℚ) : ClusterStats :=
  let r := old_dists.reverse.foldl removeStep
    (st.nof_pw_dists, st.mean_pw_dist.getD 0, st.variance_pw_dist.getD 0)
  { members := st.members - 1
    nof_pw_dists := r.1
    mean_pw_dist := some r.2.1
    variance_pw_dist := some r.2.2 }

/-- A single `removeStep` undoes a single `addStep` whenever the running
number of distances is positive. -/
theorem removeStep_addStep (acc : ℚ × ℚ × ℚ) (d : ℚ) (h : 0 < acc.1) :
    removeStep (addStep acc d) d = acc := by
  obtain ⟨n, m, v⟩ := acc
  simp only at h
  have hn : n ≠ 0 := ne_of_gt h
  have hn1 : n + 1 ≠ 0 := by intro hc; nlinarith
  simp only [addStep, removeStep]
  refine Prod.ext ?_ (Prod.ext ?_ ?_)
  · show n + 1 - 1 = n
    ring
  · show ((m * n + d) / (n + 1) * (n + 1) - d) / (n + 1 - 1) = m
    field_simp
  · simp only
    rw [show n + 1 - 1 = n by ring]
    field_simp
    ring

theorem addStep_fst (acc : ℚ × ℚ × ℚ) (x : ℚ) : (addStep acc x).1 = acc.1 + 1 := rfl

/-- Folding `removeStep` over the reversed distance list undoes folding
`addStep` over the list, for any start state with a positive distance
count. -/
theorem foldl_removeStep_foldl_addStep (ds : List ℚ) (acc : ℚ × ℚ × ℚ) (h : 0 < acc.1) :
    ds.reverse.foldl removeStep (ds.foldl addStep acc) = acc := by
  induction ds generalizing acc with
  | nil => rfl
  | cons x ds ih =>
      have hx : 0 < (addStep acc x).1 := by
        rw [addStep_fst]
        linarith
      calc (x :: ds).reverse.foldl removeStep ((x :: ds).foldl addStep acc)
          = (ds.reverse ++ [x]).foldl removeStep (ds.foldl addStep (addStep acc x)) := by
            simp [List.reverse_cons]
        _ = removeStep (ds.reverse.foldl removeStep (ds.foldl addStep (addStep acc x))) x := by
            rw [List.foldl_append]
            rfl
        _ = removeStep (addStep acc x) x := by rw [ih _ hx]
        _ = acc := removeStep_addStep acc x h

/-- C1.  `remove_member` is the algebraic inverse of `add_member`: on any
stats state with at least two members, a positive pairwise-distance count
and populated mean/variance fields, calling `remove_member ds` right after
`add_member ds` restores the state — members, `nof_pw_dists`, mean, and
variance (hence stddev = √variance) included.  This is the operation the
known-outlier and removal paths of `scripts/remove_sample.py` invoke on
states rebuilt with `ClusterStats(members=…, stddev=…, mean=…)`. -/
theorem remove_member_inverts_add_member (st : ClusterStats) (ds : List ℚ)
    (hmem : 2 ≤ st.members) (hnof : 0 < st.nof_pw_dists)
    (hmean : st.mean_pw_dist.isSome) (hvar : st.variance_pw_dist.isSome) :
    (st.add_member ds).remove_member ds = st := by
  obtain ⟨mem, nof, mean?, var?⟩ := st
  obtain ⟨mean, rfl⟩ := Option.isSome_iff_exists.mp hmean
  obtain ⟨var, rfl⟩ := Option.isSome_iff_exists.mp hvar
  simp only at hmem hnof
  have hgt : mem > 1 := hmem
  simp only [ClusterStats.add_member, ClusterStats.remove_member, if_pos hgt,
    Option.getD_some]
  have hrt := foldl_removeStep_foldl_addStep ds (nof, mean, var) hnof
  simp only [hrt, Nat.add_sub_cancel]

/-- Witness for C1 at a concrete state: three members, mean 4, stddev 1,
adding and removing the distances `[2, 3, 5]`. -/
theorem remove_member_inverts_add_member_witness :
    ((ClusterStats.ofMeanStddev 3 4 1).add_member [2, 3, 5]).remove_member [2, 3, 5]
      = ClusterStats.ofMeanStddev 3 4 1 :=
  remove_member_inverts_add_member (ClusterStats.ofMeanStddev 3 4 1) [2, 3, 5]
    (by norm_num [ClusterStats.ofMeanStddev])
    (by norm_num [ClusterStats.ofMeanStddev])
    (by simp [ClusterStats.ofMeanStddev])
    (by simp [ClusterStats.ofMeanStddev])

/-! ### Welford correctness of `add_member` -/

theorem sum_map_sub_sq (l : List ℚ) (m : ℚ) :
    (l.map fun d => (d - m) ^ 2).sum
      = (l.map fun d => d ^ 2).sum - 2 * m * l.sum + l.length * m ^ 2 := by
  induction l with
  | nil => simp
  | cons x l ih =>
      simp only [List.map_cons, List.sum_cons, List.length_cons, ih]
      push_cast
      ring

/-- The population variance is the mean square minus the squared mean. -/
theorem listPopVar_eq (l : List ℚ) :
    listPopVar l = (l.map fun d => d ^ 2).sum / l.length - listMean l ^ 2 := by
  rcases eq_or_ne l [] with rfl | hl
  · simp [listPopVar, listMean]
  · have hl0 : l.length ≠ 0 := by simpa using hl
    have hn : (l.length : ℚ) ≠ 0 := Nat.cast_ne_zero.mpr hl0
    rw [listPopVar, sum_map_sub_sq, listMean]
    field_simp
    ring

/-- One `addStep` moves the exact moment triple of a distance list to the
exact moment triple of the list with one more distance appended. -/
theorem addStep_moments (l : List ℚ) (x : ℚ) :
    addStep ((l.length : ℚ), listMean l, listPopVar l) x
      = (((l.length : ℚ) + 1), listMean (l ++ [x]), listPopVar (l ++ [x])) := by
  rcases eq_or_ne l [] with rfl | hl
  · simp [addStep, listMean, listPopVar]
  · have hl0 : l.length ≠ 0 := by simpa using hl
    have hn : (l.length : ℚ) ≠ 0 := Nat.cast_ne_zero.mpr hl0
    have hn1 : (l.length : ℚ) + 1 ≠ 0 := by positivity
    simp only [addStep, listMean, listPopVar, List.sum_append, List.map_append,
      List.length_append, List.length_cons, List.length_nil, List.sum_cons,
      List.sum_nil, List.map_cons, List.map_nil]
    push_cast
    refine Prod.ext rfl (Prod.ext ?_ ?_) <;> simp only
    · field_simp
    · rw [sum_map_sub_sq, sum_map_sub_sq]
      field_simp
      ring

/-- Folding `addStep` over `ds` starting from the exact moments of `D`
yields the exact moments of `D ++ ds`. -/
theorem foldl_addStep_moments (D ds : List ℚ) :
    ds.foldl addStep ((D.length : ℚ), listMean D, listPopVar D)
      = (((D.length : ℚ) + ds.length), listMean (D ++ ds), listPopVar (D ++ ds)) := by
  induction ds generalizing D with
  | nil => simp
  | cons x ds ih =>
      have h1 : (x :: ds).foldl addStep ((D.length : ℚ), listMean D, listPopVar D)
          = ds.foldl addStep (((D ++ [x]).length : ℚ), listMean (D ++ [x]),
              listPopVar (D ++ [x])) := by
        rw [List.foldl_cons, addStep_moments]
        simp
      rw [h1, ih (D ++ [x]), List.append_assoc]
      simp only [List.singleton_append, List.length_append, List.length_cons,
        List.length_nil]
      refine Prod.ext ?_ rfl
      simp only
      push_cast
      ring

/-- C5.  In exact arithmetic, `add_member` realises the Welford-style
update: if a state with at least two members represents the exact mean and
population variance of a distance list `D` of length `nof_pw_dists`, then
after `add_member nds` (with `nds` as long as the member count, as the
code asserts) it represents the exact mean and population variance of
`D ++ nds`, with `nof_pw_dists` increased by `nds.length` and `members`
by one. -/
theorem add_member_updates_moments (st : ClusterStats) (D nds : List ℚ)
    (hmem : 2 ≤ st.members) (hlen : nds.length = st.members)
    (hnof : st.nof_pw_dists = D.length)
    (hmean : st.mean_pw_dist = some (listMean D))
    (hvar : st.variance_pw_dist = some (listPopVar D)) :
    st.add_member nds
      = { members := st.members + 1
          nof_pw_dists := st.nof_pw_dists + nds.length
          mean_pw_dist := some (listMean (D ++ nds))
          variance_pw_dist := some (listPopVar (D ++ nds)) } := by
  have hgt : st.members > 1 := hmem
  simp only [ClusterStats.add_member, if_pos hgt, hmean, hvar, hnof, Option.getD_some]
  rw [foldl_addStep_moments]

/-- Witness for C5: the state of a 2-member cluster with its single
pairwise distance 4, extended by a new member at distances `[1, 3]`. -/
theorem add_member_updates_moments_witness :
    (ClusterStats.ofMeanStddev 2 4 0).add_member [1, 3]
      = { members := 3, nof_pw_dists := 3, mean_pw_dist := some (8 / 3),
          variance_pw_dist := some (14 / 9) } := by
  have h := add_member_updates_moments (ClusterStats.ofMeanStddev 2 4 0) [4] [1, 3]
    (by norm_num [ClusterStats.ofMeanStddev])
    (by norm_num [ClusterStats.ofMeanStddev])
    (by norm_num [ClusterStats.ofMeanStddev])
    (by norm_num [ClusterStats.ofMeanStddev, listMean])
    (by norm_num [ClusterStats.ofMeanStddev, listPopVar, listMean])
  rw [h]
  norm_num [ClusterStats.ofMeanStddev, listMean, listPopVar]

/-- C2 (code bug).  Building the stats of a 3-member cluster directly from
its full pairwise distance list `[1, 1, 2]` gives mean 1 — Python 2
integer division `sum(dists)/len(dists)` floors `4/3` — and variance 1/3,
while building the same cluster by iterated `add_member` calls gives the
true mean 4/3 and variance 2/9; the relative error of the mean, 1/4, is
far beyond the claimed 1e-9. -/
theorem ofDists_vs_iterative_code_bug :
    ClusterStats.ofDists 3 [1, 1, 2]
        = .ok { members := 3, nof_pw_dists := 3, mean_pw_dist := some 1,
                variance_pw_dist := some (1 / 3) }
      ∧ (ClusterStats.ofDists 1 []).map
            (fun st => (st.add_member [1]).add_member [1, 2])
          = .ok { members := 3, nof_pw_dists := 3, mean_pw_dist := some (4 / 3),
                  variance_pw_dist := some (2 / 9) }
      ∧ ¬ |(1 : ℚ) - 4 / 3| ≤ 1 / 10 ^ 9 * |(4 : ℚ) / 3| := by
  refine ⟨?_, ?_, ?_⟩
  · rw [ClusterStats.ofDists]
    norm_num [show Int.fdiv 4 3 = 1 from rfl]
  · rw [ClusterStats.ofDists]
    norm_num [ClusterStats.add_member, addStep, Except.map]
  · rw [show |(1 : ℚ) - 4 / 3| = 1 / 3 by rw [abs_of_nonpos] <;> norm_num,
        show |(4 : ℚ) / 3| = 4 / 3 by rw [abs_of_nonneg] <;> norm_num]
    norm_num

/-! ## Address proposal (`get_new_snp_address`, `lib/snapperdb/__init__.py`)

The Python code walks `x = 0, 1, …`, overwriting `snad[x]` with `None`
while `closest_distance > levels[x]`, and stops at the first level within
the threshold or on the `IndexError` raised by `levels[7]`. -/

/-- The `while` loop of `get_new_snp_address`: first argument the
remaining levels, second the remaining (not yet visited) address slots. -/
def newSnpAddressGo (d : ℤ) : List ℤ → List ℕ → List (Option ℕ)
  | l :: ls, a :: rest =>
      if d > l then none :: newSnpAddressGo d ls rest
      else (a :: rest).map some
  | _, _ => []

/-- `get_new_snp_address(nbhood)`: the closest neighbour's address with a
`None` prefix at every level whose threshold the closest distance
exceeds.  Thresholds are the fixed `T = (0, 5, 10, 25, 50, 100, 250)`. -/
def get_new_snp_address (closest_distance : ℤ) (closest_snad : List ℕ) : List (Option ℕ) :=
  newSnpAddressGo closest_distance [0, 5, 10, 25, 50, 100, 250] closest_snad

/-- C6.  For every neighbourhood whose closest sample has address
`[a0, …, a6]` and closest distance `d`, the proposed address has `none`
at level `i` exactly when `d > T[i]` and the closest sample's id there
otherwise, at all seven levels — the early-exit loop realises the
per-level rule because the thresholds increase. -/
theorem get_new_snp_address_per_level (d : ℤ) (a0 a1 a2 a3 a4 a5 a6 : ℕ) :
    get_new_snp_address d [a0, a1, a2, a3, a4, a5, a6]
      = [if d > 0 then none else some a0,
         if d > 5 then none else some a1,
         if d > 10 then none else some a2,
         if d > 25 then none else some a3,
         if d > 50 then none else some a4,
         if d > 100 then none else some a5,
         if d > 250 then none else some a6] := by
  simp only [get_new_snp_address, newSnpAddressGo, List.map_cons, List.map_nil]
  split_ifs <;> simp_all <;> omega

/-! ## One-to-many distances (`get_distances`, `lib/distances/__init__.py`)

`get_distances` accumulates per-contig results into a dict keyed by
sample id (missing key → insert, present key → add) and then sorts the
items with `sorted(key=itemgetter(1))` — a stable sort on the distance
alone.  The dict is modelled as an association list in first-insertion
order; the row order inside each contig result is whatever the database
procedure returned, which nothing constrains. -/

/-- Comparison used by the final `sorted(..., key=itemgetter(1))`. -/
def distLE (p q : ℕ × ℤ) : Prop := p.2 ≤ q.2

instance : DecidableRel distLE := fun p q => inferInstanceAs (Decidable (p.2 ≤ q.2))

instance : IsTotal (ℕ × ℤ) distLE := ⟨fun p q => le_total p.2 q.2⟩

instance : IsTrans (ℕ × ℤ) distLE := ⟨fun _ _ _ => le_trans⟩

/-- One `d[res[0]] += res[2] / except KeyError: d[res[0]] = res[2]` step. -/
def dictAdd (d : List (ℕ × ℤ)) (key : ℕ) (v : ℤ) : List (ℕ × ℤ) :=
  if d.any fun p => p.1 = key then
    d.map fun p => if p.1 = key then (p.1, p.2 + v) else p
  else
    d ++ [(key, v)]

/-- The dict of summed distances over all contigs (`None` rows count 0). -/
def distanceDict (contigResults : List (List (ℕ × Option ℤ))) : List (ℕ × ℤ) :=
  contigResults.foldl (fun d rows => rows.foldl (fun d r => dictAdd d r.1 (r.2.getD 0)) d) []

/-- `get_distances(cur, samid, others)` as a function of the per-contig
result rows. -/
def get_distances (contigResults : List (List (ℕ × Option ℤ))) : List (ℕ × ℤ) :=
  (distanceDict contigResults).insertionSort distLE

/-- C7 (counterexample).  With a single contig whose rows arrive as
`[(16, 5), (8, 5)]`, the returned list keeps the tied pair in that order:
it is not ordered ascending by target sample id among equal distances. -/
theorem get_distances_tie_order_counterexample :
    get_distances [[(16, some 5), (8, some 5)]] = [(16, 5), (8, 5)]
      ∧ ¬ (get_distances [[(16, some 5), (8, some 5)]]).Pairwise
            (fun p q => p.2 = q.2 → p.1 ≤ q.1) := by
  constructor
  · rfl
  · decide

/-- C7 (amended).  The distance list `get_distances` returns is sorted
ascending by distance — stably, so entries with equal distance keep the
dict order, which follows the database row order rather than the sample
id — and contains exactly the accumulated dict items. -/
theorem get_distances_sorted_by_distance (contigResults : List (List (ℕ × Option ℤ))) :
    (get_distances contigResults).Pairwise (fun p q => p.2 ≤ q.2)
      ∧ (get_distances contigResults).Perm (distanceDict contigResults) :=
  ⟨List.sorted_insertionSort distLE (distanceDict contigResults),
   List.perm_insertionSort distLE (distanceDict contigResults)⟩

/-! ## Merge detection (`lib/merging/__init__.py`, `lib/ClusterMerge.py`)

`check_merging_needed` walks the proposed address level by level; at a
level with an existing id it collects the distinct level-`i` cluster ids
of all samples within the threshold (a dict comprehension, modelled as
first-occurrence dedup) and, when there is more than one, constructs
`ClusterMerge(level=lvl, clusters=…)`.  `ClusterMerge.__init__` however
reads `kwargs['sizes']`, which that call never passes. -/

/-- State of a `ClusterMerge` object (fields of `__init__`). -/
structure ClusterMerge where
  level : ℕ
  org_clusters : List ℕ
  org_sizes : List ℕ
  final_name : Option ℕ
  deriving Repr, DecidableEq

/-- `ClusterMerge.__init__(**kwargs)`: reads `kwargs['level']`,
`kwargs['clusters']` and `kwargs['sizes']`; a kwarg that was not passed
is a `KeyError`. -/
def ClusterMerge.init (level : ℕ) (clusters : List ℕ) (sizes : Option (List ℕ)) :
    Except PyErr ClusterMerge :=
  match sizes with
  | none => .error .keyError
  | some sz => .ok { level := level, org_clusters := clusters, org_sizes := sz,
                     final_name := none }

/-- Keys of a Python dict built by comprehension: first-occurrence order,
no duplicates. -/
def keysOf (l : List ℕ) : List ℕ :=
  l.foldl (fun ks k => if k ∈ ks then ks else ks ++ [k]) []

/-- `check_merging_needed(cur, distances, new_snad)`: `clusterAt lvl s` is
the database lookup of sample `s`'s cluster id at level `lvl`
(`SELECT t<lvl> FROM sample_clusters WHERE fk_sample_id IN …`). -/
def check_merging_needed (distances : List (ℕ × ℤ)) (new_snad : List (Option ℕ))
    (clusterAt : ℕ → ℕ → ℕ) : Except PyErr (List (ℕ × ClusterMerge)) :=
  (new_snad.zip ([0, 5, 10, 25, 50, 100, 250] : List ℕ)).foldlM
    (fun merges nl =>
      match nl.1 with
      | none => .ok merges
      | some _ =>
          let samples := (distances.filter fun sd => sd.2 ≤ (nl.2 : ℤ)).map Prod.fst
          let clusters := keysOf (samples.map (clusterAt nl.2))
          if clusters.length > 1 then
            (ClusterMerge.init nl.2 clusters none).map fun oMer => merges ++ [(nl.2, oMer)]
          else
            .ok merges)
    []

/-- A concrete cluster lookup: sample 2 sits in cluster 2, everything
else in cluster 1, at every level. -/
def exampleClusterAt : ℕ → ℕ → ℕ := fun _ s => if s = 2 then 2 else 1

/-- C4 (code bug).  With samples 1 and 2 at distances 0 and 3 from the
new sample and a proposed address that reuses cluster 1 at every level,
level 5 has two distinct clusters within threshold, so a merge is needed
— and `check_merging_needed` raises `KeyError` instead of returning the
merge record, because `ClusterMerge.__init__` demands a `sizes` kwarg its
caller never passes (the constructor's docstring documents only `level`
and `clusters`). -/
theorem check_merging_needed_keyerror :
    (keysOf ((([(1, 0), (2, 3)] : List (ℕ × ℤ)).filter
        fun sd => sd.2 ≤ (5 : ℤ)).map fun sd => exampleClusterAt 5 sd.1)).length > 1
      ∧ check_merging_needed [(1, 0), (2, 3)]
          [some 1, some 1, some 1, some 1, some 1, some 1, some 1] exampleClusterAt
        = .error .keyError :=
  ⟨by decide, rfl⟩

/-! ## z-score admissibility (`check_zscores`, `lib/snapperdb/__init__.py`)

The per-member loop (source lines 352–381): for each current member with
recorded mean-to-others `old_medis` and distance `new_dist` to the
candidate, the code computes
`new_medis = ((old_medis / float(nof_mems - 1)) + new_dist) / float(nof_mems)`
— note the division — and sets the failure flag when
`(new_medis − mean_all_dist_in_c) / stddev ≤ −1.75`. -/

/-- The updated mean-to-others as the code computes it. -/
def new_medis_code (old_medis : ℚ) (nof_mems : ℕ) (new_dist : ℚ) : ℚ :=
  (old_medis / ((nof_mems : ℚ) - 1) + new_dist) / (nof_mems : ℚ)

/-- The per-member portion of `check_zscores` at one level: `mems` pairs
each current member's recorded `t<lvl>_mean` with its distance to the
candidate; `mean_all` and `stddev` are the post-addition cluster mean and
stddev.  Returns the failure flag contributed by this loop. -/
def per_member_check (mean_all stddev : ℚ) (nof_mems : ℕ) (mems : List (ℚ × ℚ)) : Bool :=
  mems.foldl
    (fun fail od =>
      let zscr := (new_medis_code od.1 nof_mems od.2 - mean_all) / stddev
      if zscr ≤ -(7 / 4 : ℚ) then true else fail)
    false

/-- C3 (counterexample).  Member with recorded mean 1 in a cluster of
three existing members, distance 1 to the candidate, post-addition mean
11/5 and stddev 1.  The claimed update `(old × (k−1) + d_new)/k` (with
`k = 4` counting the new sample) gives 1, whose z-score `−6/5 ≤ −1` means
the claim predicts rejection; the code instead computes
`(old/(k−1) + d_new)/k = 1/2`, compares its z-score `−17/10` against
`−1.75`, and accepts. -/
theorem per_member_check_counterexample :
    per_member_check (11 / 5) 1 3 [(1, 1)] = false
      ∧ ((1 * ((4 : ℚ) - 1) + 1) / 4 - 11 / 5) / 1 ≤ -1 := by
  constructor
  · norm_num [per_member_check, new_medis_code]
  · norm_num

/-- The flag-accumulating fold of the per-member loop is a disjunction. -/
theorem per_member_fold_eq (mean_all stddev : ℚ) (nof_mems : ℕ)
    (mems : List (ℚ × ℚ)) (b : Bool) :
    (mems.foldl
        (fun fail od =>
          if (new_medis_code od.1 nof_mems od.2 - mean_all) / stddev ≤ -(7 / 4 : ℚ)
          then true else fail) b)
      = (b || mems.any fun od =>
          decide ((new_medis_code od.1 nof_mems od.2 - mean_all) / stddev
            ≤ -(7 / 4 : ℚ))) := by
  induction mems generalizing b with
  | nil => simp
  | cons od mems ih =>
      simp only [List.foldl_cons, List.any_cons, ih]
      by_cases h : (new_medis_code od.1 nof_mems od.2 - mean_all) / stddev ≤ -(7 / 4 : ℚ) <;>
        simp [h, Bool.or_assoc, Bool.or_comm]

/-- C3 (amended).  The per-member loop rejects exactly when some current
member's updated mean-to-others, computed as
`(old/(nof_mems − 1) + d_new)/nof_mems` with `nof_mems` the member count
excluding the candidate, has z-score at most −1.75. -/
theorem per_member_check_iff (mean_all stddev : ℚ) (nof_mems : ℕ)
    (mems : List (ℚ × ℚ)) :
    per_member_check mean_all stddev nof_mems mems = true
      ↔ ∃ od ∈ mems,
          (new_medis_code od.1 nof_mems od.2 - mean_all) / stddev ≤ -(7 / 4 : ℚ) := by
  simp only [per_member_check, per_member_fold_eq, Bool.false_or, List.any_eq_true,
    decide_eq_true_eq]

/-! ## The per-remove distance memo (`scripts/remove_sample.py`)

`remember_distance` stores `distances[a][b] = d` and `distances[b][a] = d`
(creating the inner dict on `KeyError`); `get_distances_from_memory`
reads memoised distances and calls `get_distances` for the misses,
remembering every pair it computes.  The nested dicts are modelled as
association lists with unique keys in insertion order. -/

/-- Inner dict of one sample: target id → distance. -/
def innerSet : List (ℕ × ℤ) → ℕ → ℤ → List (ℕ × ℤ)
  | [], b, d => [(b, d)]
  | (k, v) :: rest, b, d =>
      if k = b then (k, d) :: rest else (k, v) :: innerSet rest b d

/-- Lookup in the inner dict. -/
def innerGet : List (ℕ × ℤ) → ℕ → Option ℤ
  | [], _ => none
  | (k, v) :: rest, b => if k = b then some v else innerGet rest b

/-- The memo: sample id → inner dict. -/
def outerSet : List (ℕ × List (ℕ × ℤ)) → ℕ → ℕ → ℤ → List (ℕ × List (ℕ × ℤ))
  | [], a, b, d => [(a, [(b, d)])]
  | (k, rows) :: rest, a, b, d =>
      if k = a then (k, innerSet rows b d) :: rest
      else (k, rows) :: outerSet rest a b d

/-- Lookup a sample's inner dict. -/
def outerGet : List (ℕ × List (ℕ × ℤ)) → ℕ → Option (List (ℕ × ℤ))
  | [], _ => none
  | (k, rows) :: rest, a => if k = a then some rows else outerGet rest a

/-- `distances[a][b]`, as an optional value. -/
def memoLookup (m : List (ℕ × List (ℕ × ℤ))) (a b : ℕ) : Option ℤ :=
  (outerGet m a).bind fun rows => innerGet rows b

/-- `remember_distance(distances, a, b, d)`: store the distance in both
directions. -/
def remember_distance (m : List (ℕ × List (ℕ × ℤ))) (a b : ℕ) (d : ℤ) :
    List (ℕ × List (ℕ × ℤ)) :=
  outerSet (outerSet m a b d) b a d

/-- `get_distances_from_memory(cur, distances, a, targets)`: memo hits are
read, misses are computed (`dist` stands for the distance engine behind
`get_distances`) and remembered, and the combined list is sorted by
distance.  Returns the result list and the updated memo. -/
def get_distances_from_memory (dist : ℕ → ℕ → ℤ) (m : List (ℕ × List (ℕ × ℤ)))
    (a : ℕ) (targets : List ℕ) :
    List (ℕ × ℤ) × List (ℕ × List (ℕ × ℤ)) :=
  let result := targets.filterMap fun t => (memoLookup m a t).map fun d => (t, d)
  let others := targets.filter fun t => memoLookup m a t = none
  let d := others.map fun t => (t, dist a t)
  let m2 := d.foldl (fun mm sd => remember_distance mm a sd.1 sd.2) m
  ((result ++ d).insertionSort distLE, m2)

/-- One operation on the shared memo. -/
inductive MemoOp where
  | rememberOp (a b : ℕ) (d : ℤ)
  | getFromMemoryOp (a : ℕ) (targets : List ℕ)

/-- Effect of one operation on the memo. -/
def applyOp (dist : ℕ → ℕ → ℤ) (m : List (ℕ × List (ℕ × ℤ))) :
    MemoOp → List (ℕ × List (ℕ × ℤ))
  | .rememberOp a b d => remember_distance m a b d
  | .getFromMemoryOp a targets => (get_distances_from_memory dist m a targets).2

/-- Run a sequence of operations starting from the empty memo. -/
def runOps (dist : ℕ → ℕ → ℤ) (ops : List MemoOp) : List (ℕ × List (ℕ × ℤ)) :=
  ops.foldl (applyOp dist) []

theorem innerGet_innerSet (rows : List (ℕ × ℤ)) (b : ℕ) (d : ℤ) (y : ℕ) :
    innerGet (innerSet rows b d) y = if y = b then some d else innerGet rows y := by
  induction rows with
  | nil =>
      simp only [innerSet, innerGet]
      rcases eq_or_ne y b with rfl | h
      · simp
      · rw [if_neg fun hh => h hh.symm, if_neg h]
  | cons kv rest ih =>
      obtain ⟨k, v⟩ := kv
      rcases eq_or_ne k b with rfl | hkb
      · simp only [innerSet, if_pos rfl, innerGet]
        rcases eq_or_ne y k with rfl | hyk
        · simp
        · simp [hyk, Ne.symm hyk]
      · simp only [innerSet, if_neg hkb, innerGet, ih]
        rcases eq_or_ne k y with rfl | hky
        · simp [hkb]
        · simp [hky]

theorem outerGet_outerSet (m : List (ℕ × List (ℕ × ℤ))) (a b : ℕ) (d : ℤ) (x : ℕ) :
    outerGet (outerSet m a b d) x
      = if x = a then some (innerSet ((outerGet m a).getD []) b d)
        else outerGet m x := by
  induction m with
  | nil =>
      simp only [outerSet, outerGet]
      rcases eq_or_ne x a with rfl | h
      · simp [innerSet]
      · simp [h, Ne.symm h]
  | cons krows rest ih =>
      obtain ⟨k, rows⟩ := krows
      rcases eq_or_ne k a with rfl | hka
      · simp only [outerSet, if_pos rfl, outerGet]
        rcases eq_or_ne x k with rfl | hxk
        · simp
        · simp [hxk, Ne.symm hxk]
      · simp only [outerSet, if_neg hka, outerGet, ih]
        rcases eq_or_ne k x with rfl | hkx
        · simp [hka, Ne.symm hka]
        · simp [hkx]

theorem memoLookup_outerSet (m : List (ℕ × List (ℕ × ℤ))) (a b : ℕ) (d : ℤ) (x y : ℕ) :
    memoLookup (outerSet m a b d) x y
      = if x = a ∧ y = b then some d else memoLookup m x y := by
  simp only [memoLookup, outerGet_outerSet]
  rcases eq_or_ne x a with rfl | hxa
  · rw [if_pos rfl]
    simp only [Option.some_bind, true_and]
    rw [innerGet_innerSet]
    rcases eq_or_ne y b with rfl | hyb
    · simp
    · simp only [if_neg hyb]
      cases h : outerGet m x with
      | none => simp [innerGet]
      | some rows => simp
  · simp [hxa]

theorem memoLookup_remember (m : List (ℕ × List (ℕ × ℤ))) (a b : ℕ) (d : ℤ) (x y : ℕ) :
    memoLookup (remember_distance m a b d) x y
      = if x = b ∧ y = a then some d
        else if x = a ∧ y = b then some d
        else memoLookup m x y := by
  simp only [remember_distance, memoLookup_outerSet]

/-- The symmetry invariant of the memo: an entry is present in one
direction iff in the other, with the same value. -/
def MemoSym (m : List (ℕ × List (ℕ × ℤ))) : Prop :=
  ∀ a b, memoLookup m a b = memoLookup m b a

theorem memoSym_remember {m : List (ℕ × List (ℕ × ℤ))} (h : MemoSym m)
    (a b : ℕ) (d : ℤ) : MemoSym (remember_distance m a b d) := by
  intro x y
  simp only [memoLookup_remember]
  split_ifs <;> first | rfl | tauto | exact h x y

theorem memoSym_foldl_remember {m : List (ℕ × List (ℕ × ℤ))} (h : MemoSym m)
    (a : ℕ) (l : List (ℕ × ℤ)) :
    MemoSym (l.foldl (fun mm sd => remember_distance mm a sd.1 sd.2) m) := by
  induction l generalizing m with
  | nil => exact h
  | cons sd l ih => exact ih (memoSym_remember h a sd.1 sd.2)

theorem memoSym_applyOp {m : List (ℕ × List (ℕ × ℤ))} (dist : ℕ → ℕ → ℤ)
    (h : MemoSym m) (op : MemoOp) : MemoSym (applyOp dist m op) := by
  cases op with
  | rememberOp a b d => exact memoSym_remember h a b d
  | getFromMemoryOp a targets => exact memoSym_foldl_remember h a _

/-- C10.  Starting from the empty per-remove memo, after any sequence of
`remember_distance` and `get_distances_from_memory` calls the memo is
symmetric: `distances[a][b]` is present exactly when `distances[b][a]`
is, and the two values are equal. -/
theorem memo_stays_symmetric (dist : ℕ → ℕ → ℤ) (ops : List MemoOp) (a b : ℕ) :
    memoLookup (runOps dist ops) a b = memoLookup (runOps dist ops) b a := by
  suffices h : MemoSym (runOps dist ops) from h a b
  rw [runOps]
  generalize hstart : ([] : List (ℕ × List (ℕ × ℤ))) = start
  have hsym : MemoSym start := by
    intro x y
    rw [← hstart]
    rfl
  clear hstart
  induction ops generalizing start with
  | nil => exact hsym
  | cons op ops ih => exact ih _ (memoSym_applyOp dist hsym op)

/-! ## Splits after removal (`scripts/remove_sample.py`, lines 537–591)

When a removal disconnects a cluster at level `lvl`,
`update_cluster_stats_post_removal` sorts the discovered connected
components by size, descending (`sorted(groups.values(), key=len,
reverse=True)`), keeps the first (largest) where it is, and for every
other component: queries `SELECT max(t<lvl>) FROM sample_clusters`, adds
one to name the new cluster, writes one `sample_history` row per member
(`update_sample_history`: the new address copies the old one except at
`lvl`), and renames the members in `sample_clusters`.  Addresses are
7-tuples modelled as `Fin 7 → ℕ`; the `cluster_stats` and per-member
mean updates interleaved in the source do not touch ids or history and
are outside this model's claim. -/

/-- Replace one level of an address. -/
def setLvl (ad : Fin 7 → ℕ) (lvl : Fin 7) (c : ℕ) : Fin 7 → ℕ :=
  fun j => if j = lvl then c else ad j

/-- One row of `sample_history`. -/
structure HistoryRow where
  sample : ℕ
  oldAddr : Fin 7 → ℕ
  newAddr : Fin 7 → ℕ
  deriving DecidableEq

/-- Address of a sample in the `sample_clusters` table (first matching
row; the all-zero default is never consulted for samples with a row). -/
def addrOf : List (ℕ × (Fin 7 → ℕ)) → ℕ → (Fin 7 → ℕ)
  | [], _ => fun _ => 0
  | (k, ad) :: rest, s => if k = s then ad else addrOf rest s

/-- `SELECT max(t<lvl>) AS m FROM sample_clusters` (0 on an empty table,
which the callers never query). -/
def maxAtLevel (tbl : List (ℕ × (Fin 7 → ℕ))) (lvl : Fin 7) : ℕ :=
  (tbl.map fun r => r.2 lvl).foldl max 0

/-- `UPDATE sample_clusters SET t<lvl> = c WHERE fk_sample_id IN g`. -/
def renameRows (tbl : List (ℕ × (Fin 7 → ℕ))) (g : List ℕ) (lvl : Fin 7) (c : ℕ) :
    List (ℕ × (Fin 7 → ℕ)) :=
  tbl.map fun r => if r.1 ∈ g then (r.1, setLvl r.2 lvl c) else r

/-- The `sample_history` row `update_sample_history` inserts for `samid`:
old address read from the table, new address differing only at `lvl`. -/
def mkHistRow (tbl : List (ℕ × (Fin 7 → ℕ))) (lvl : Fin 7) (c samid : ℕ) : HistoryRow :=
  { sample := samid, oldAddr := addrOf tbl samid,
    newAddr := setLvl (addrOf tbl samid) lvl c }

/-- Processing of one non-largest component `grli`: allocate
`max(t<lvl>) + 1` on the current table, write history, rename. -/
def splitStep (lvl : Fin 7)
    (st : List (ℕ × (Fin 7 → ℕ)) × List HistoryRow) (grli : List ℕ) :
    List (ℕ × (Fin 7 → ℕ)) × List HistoryRow :=
  let new_clu_name := maxAtLevel st.1 lvl + 1
  (renameRows st.1 grli lvl new_clu_name,
   st.2 ++ grli.map (mkHistRow st.1 lvl new_clu_name))

/-- Comparison behind `sorted(..., key=len, reverse=True)`. -/
def lenGE (g h : List ℕ) : Prop := h.length ≤ g.length

instance : DecidableRel lenGE := fun g h => inferInstanceAs (Decidable (h.length ≤ g.length))

instance : IsTotal (List ℕ) lenGE := ⟨fun g h => by
  rcases le_total h.length g.length with h1 | h1
  · exact Or.inl h1
  · exact Or.inr h1⟩

instance : IsTrans (List ℕ) lenGE := ⟨fun _ _ _ h1 h2 => le_trans h2 h1⟩

/-- The component lists sorted by size, descending and stable. -/
def sortGroupsDesc (groups : List (List ℕ)) : List (List ℕ) :=
  groups.insertionSort lenGE

/-- Fold of `splitStep` over a list of components. -/
def splitFold (tbl : List (ℕ × (Fin 7 → ℕ))) (lvl : Fin 7) (groups : List (List ℕ)) :
    List (ℕ × (Fin 7 → ℕ)) × List HistoryRow :=
  groups.foldl (splitStep lvl) (tbl, [])

/-- The split portion of `update_cluster_stats_post_removal`: sort the
components by size descending and process every one but the first. -/
def apply_splits (tbl : List (ℕ × (Fin 7 → ℕ))) (lvl : Fin 7) (groups : List (List ℕ)) :
    List (ℕ × (Fin 7 → ℕ)) × List HistoryRow :=
  splitFold tbl lvl (sortGroupsDesc groups).tail

theorem addrOf_renameRows_not_mem (tbl : List (ℕ × (Fin 7 → ℕ))) (g : List ℕ)
    (lvl : Fin 7) (c : ℕ) (s : ℕ) (hs : s ∉ g) :
    addrOf (renameRows tbl g lvl c) s = addrOf tbl s := by
  induction tbl with
  | nil => rfl
  | cons r rest ih =>
      obtain ⟨k, ad⟩ := r
      rw [renameRows, List.map_cons]
      by_cases hk : k ∈ g
      · have hks : k ≠ s := fun h => hs (h ▸ hk)
        rw [if_pos hk]
        show addrOf ((k, setLvl ad lvl c) :: renameRows rest g lvl c) s = _
        rw [addrOf, if_neg hks, addrOf, if_neg hks]
        exact ih
      · rw [if_neg hk]
        show addrOf ((k, ad) :: renameRows rest g lvl c) s = _
        rw [addrOf, addrOf]
        by_cases hks : k = s
        · rw [if_pos hks, if_pos hks]
        · rw [if_neg hks, if_neg hks]
          exact ih

theorem splitFold_addr_not_mem (lvl : Fin 7) (groups : List (List ℕ))
    (st : List (ℕ × (Fin 7 → ℕ)) × List HistoryRow) (s : ℕ)
    (hs : ∀ g ∈ groups, s ∉ g) :
    addrOf (groups.foldl (splitStep lvl) st).1 s = addrOf st.1 s := by
  induction groups generalizing st with
  | nil => rfl
  | cons g gs ih =>
      rw [List.foldl_cons, ih _ fun g2 hg => hs g2 (List.mem_cons_of_mem _ hg)]
      exact addrOf_renameRows_not_mem st.1 g lvl _ s (hs g (List.mem_cons_self g gs))

theorem splitFold_hist_samples (lvl : Fin 7) (groups : List (List ℕ))
    (st : List (ℕ × (Fin 7 → ℕ)) × List HistoryRow) :
    (groups.foldl (splitStep lvl) st).2.map (fun h => h.sample)
      = st.2.map (fun h => h.sample) ++ groups.flatten := by
  induction groups generalizing st with
  | nil => simp
  | cons g gs ih =>
      rw [List.foldl_cons, ih]
      simp only [splitStep, List.map_append, List.map_map, List.flatten_cons,
        List.append_assoc]
      congr 1
      congr 1
      calc List.map ((fun h => h.sample) ∘ mkHistRow st.1 lvl (maxAtLevel st.1 lvl + 1)) g
          = List.map id g := List.map_congr_left fun s _ => rfl
        _ = g := List.map_id g

theorem splitFold_hist_only_lvl (lvl : Fin 7) (groups : List (List ℕ))
    (st : List (ℕ × (Fin 7 → ℕ)) × List HistoryRow)
    (hst : ∀ h ∈ st.2, ∀ j, j ≠ lvl → h.newAddr j = h.oldAddr j) :
    ∀ h ∈ (groups.foldl (splitStep lvl) st).2, ∀ j, j ≠ lvl → h.newAddr j = h.oldAddr j := by
  induction groups generalizing st with
  | nil => exact hst
  | cons g gs ih =>
      rw [List.foldl_cons]
      refine ih _ ?_
      intro h hh j hj
      rcases List.mem_append.mp hh with hmem | hmem
      · exact hst h hmem j hj
      · obtain ⟨samid, _, rfl⟩ := List.mem_map.mp hmem
        simp [mkHistRow, setLvl, hj]

theorem splitFold_hist_mem (lvl : Fin 7) (groups : List (List ℕ))
    (st : List (ℕ × (Fin 7 → ℕ)) × List HistoryRow) (h : HistoryRow)
    (hh : h ∈ st.2) : h ∈ (groups.foldl (splitStep lvl) st).2 := by
  induction groups generalizing st with
  | nil => exact hh
  | cons g gs ih =>
      rw [List.foldl_cons]
      exact ih _ (List.mem_append_left _ hh)

/-- The history row of the `j`-th processed component carries exactly the
`max + 1` allocation computed on the table state of that moment. -/
theorem splitFold_alloc (lvl : Fin 7) (moved : List (List ℕ))
    (tbl : List (ℕ × (Fin 7 → ℕ))) (j : ℕ) (hj : j < moved.length)
    (s : ℕ) (hs : s ∈ moved.get ⟨j, hj⟩) :
    mkHistRow (splitFold tbl lvl (moved.take j)).1 lvl
        (maxAtLevel (splitFold tbl lvl (moved.take j)).1 lvl + 1) s
      ∈ (splitFold tbl lvl moved).2 := by
  have hsplit : moved = moved.take j ++ (moved.get ⟨j, hj⟩ :: moved.drop (j + 1)) := by
    conv_lhs => rw [← List.take_append_drop j moved]
    rw [List.drop_eq_getElem_cons hj, List.get_eq_getElem]
  rw [show splitFold tbl lvl moved
        = (moved.drop (j + 1)).foldl (splitStep lvl)
            (splitStep lvl (splitFold tbl lvl (moved.take j)) (moved.get ⟨j, hj⟩)) by
      conv_lhs => rw [hsplit]
      rw [splitFold, List.foldl_append, List.foldl_cons]
      rfl]
  apply splitFold_hist_mem
  apply List.mem_append_right
  exact List.mem_map.mpr ⟨s, hs, rfl⟩

/-- C8.  On a forced split: (1) samples outside the moved components —
the largest component included — keep their address; (2) the retained
head of the sorted component list is one of largest size; (3) exactly one
`sample_history` row is written per moved sample; (4) every history row's
old and new addresses differ only at the split level; (5) the `j`-th
moved component's members get history rows allocating precisely
`max(existing ids at the level) + 1` on the table state at the moment of
that allocation. -/
theorem split_rename (tbl : List (ℕ × (Fin 7 → ℕ))) (lvl : Fin 7) (groups : List (List ℕ)) :
    (∀ s, (∀ g ∈ (sortGroupsDesc groups).tail, s ∉ g) →
        addrOf (apply_splits tbl lvl groups).1 s = addrOf tbl s)
      ∧ (∀ g ∈ (sortGroupsDesc groups).tail,
          g.length ≤ ((sortGroupsDesc groups).headD []).length)
      ∧ (apply_splits tbl lvl groups).2.map (fun h => h.sample)
          = (sortGroupsDesc groups).tail.flatten
      ∧ (∀ h ∈ (apply_splits tbl lvl groups).2, ∀ j, j ≠ lvl → h.newAddr j = h.oldAddr j)
      ∧ (∀ j (hj : j < (sortGroupsDesc groups).tail.length),
          ∀ s ∈ (sortGroupsDesc groups).tail.get ⟨j, hj⟩,
            mkHistRow (splitFold tbl lvl ((sortGroupsDesc groups).tail.take j)).1 lvl
                (maxAtLevel (splitFold tbl lvl ((sortGroupsDesc groups).tail.take j)).1 lvl + 1) s
              ∈ (apply_splits tbl lvl groups).2) := by
  refine ⟨?_, ?_, ?_, ?_, ?_⟩
  · intro s hs
    exact splitFold_addr_not_mem lvl _ (tbl, []) s hs
  · intro g hg
    have hsorted : List.Sorted lenGE (sortGroupsDesc groups) :=
      List.sorted_insertionSort lenGE groups
    cases hgl : sortGroupsDesc groups with
    | nil => rw [hgl] at hg; cases hg
    | cons h0 t =>
        rw [hgl] at hg hsorted
        exact List.rel_of_sorted_cons hsorted g hg
  · rw [apply_splits, splitFold, splitFold_hist_samples]
    simp
  · exact splitFold_hist_only_lvl lvl _ (tbl, []) (by simp)
  · intro j hj s hs
    exact splitFold_alloc lvl _ tbl j hj s hs

/-- Witness table for C8: five samples, all in cluster 1 at every level. -/
def wTbl : List (ℕ × (Fin 7 → ℕ)) :=
  [(1, fun _ => 1), (2, fun _ => 1), (3, fun _ => 1), (4, fun _ => 1), (5, fun _ => 1)]

/-- Witness components for C8: `{4, 5}` and the larger `{1, 2, 3}`. -/
def wGroups : List (List ℕ) := [[4, 5], [1, 2, 3]]

/-- Witness for C8: the largest component `{1, 2, 3}` keeps its address,
one history row is written for each of 4 and 5, and sample 4's row
records the allocation `max + 1` on the starting table. -/
theorem split_rename_witness :
    addrOf (apply_splits wTbl 1 wGroups).1 1 = addrOf wTbl 1
      ∧ (apply_splits wTbl 1 wGroups).2.map (fun h => h.sample)
          = (sortGroupsDesc wGroups).tail.flatten
      ∧ mkHistRow (splitFold wTbl 1 ((sortGroupsDesc wGroups).tail.take 0)).1 1
          (maxAtLevel (splitFold wTbl 1 ((sortGroupsDesc wGroups).tail.take 0)).1 1 + 1) 4
          ∈ (apply_splits wTbl 1 wGroups).2 := by
  obtain ⟨ha, hb, hc, hd, he⟩ := split_rename wTbl 1 wGroups
  exact ⟨ha 1 (by decide), hc, he 0 (by decide) 4 (by decide)⟩

/-! ## k-nearest query (`SnapperDBInterrogation.get_closest_samples`)

The method accumulates same-cluster members level by level (a Python
set, excluding the query sample), breaking once at least `k` candidates
are collected; if the clusters are exhausted first it falls back to all
relevant samples — a pool that contains the query sample itself.  It then
sorts the distances, takes the first `k`, appends the ties of the `k`-th
distance, and finally filters the query sample out of the result.
`memberLists` are the per-level member query results (including the
query sample), `relevant` the fall-back pool rows, and `distTo` the
distance engine; per §8 of the spec the self-distance is 0. -/

/-- The set-accumulation loop over the levels: add each level's members
(except the query), stop once at least `k` candidates are present. -/
def accumulateClose (k samid : ℕ) : List (List ℕ) → List ℕ → List ℕ
  | [], acc => acc
  | ms :: rest, acc =>
      let acc2 := ms.foldl (fun a r => if r ≠ samid ∧ r ∉ a then a ++ [r] else a) acc
      if k ≤ acc2.length then acc2 else accumulateClose k samid rest acc2

/-- The pool the distances are computed against: the accumulated
close samples, or — when fewer than `k` were found — every relevant
sample (`get_relevant_distances`), the query included. -/
def closePool (memberLists : List (List ℕ)) (relevant : List ℕ) (samid k : ℕ) : List ℕ :=
  let close := accumulateClose k samid memberLists []
  if close.length < k then relevant else close

/-- The sorted distance list of the pool, through `get_distances` with a
single contig. -/
def closestDl (memberLists : List (List ℕ)) (relevant : List ℕ) (distTo : ℕ → ℤ)
    (samid k : ℕ) : List (ℕ × ℤ) :=
  get_distances [(closePool memberLists relevant samid k).map fun s => (s, some (distTo s))]

/-- The tie-extension loop: walk the remaining entries and append those
whose distance equals the last distance of the running result. -/
def extendTies (r rest : List (ℕ × ℤ)) : List (ℕ × ℤ) :=
  rest.foldl (fun acc p => if acc.getLast?.map Prod.snd = some p.2 then acc ++ [p] else acc) r

/-- `get_closest_samples(sam_name, neighbours)`, returning ids (the
id→name resolution is a bijective renaming the claims do not touch). -/
def get_closest_samples (memberLists : List (List ℕ)) (relevant : List ℕ)
    (distTo : ℕ → ℤ) (samid k : ℕ) : List (ℕ × ℤ) :=
  let dl := closestDl memberLists relevant distTo samid k
  (extendTies (dl.take k) (dl.drop k)).filter fun p => p.1 ≠ samid

/-- The `k`-th smallest distance of the pool: last entry of the first
`k` of the sorted distance list. -/
def kthCutoff (dl : List (ℕ × ℤ)) (k : ℕ) : ℤ := ((dl.take k).getLastD (0, 0)).2

theorem dictAdd_not_mem (d : List (ℕ × ℤ)) (key : ℕ) (v : ℤ)
    (h : key ∉ d.map Prod.fst) : dictAdd d key v = d ++ [(key, v)] := by
  rw [dictAdd, if_neg]
  simp only [List.any_eq_true, decide_eq_true_eq, not_exists, not_and]
  intro p hp hpk
  exact h (List.mem_map.mpr ⟨p, hp, hpk⟩)

theorem foldl_dictAdd_nodup (rows : List (ℕ × Option ℤ)) (d : List (ℕ × ℤ))
    (hdisj : ∀ r ∈ rows, r.1 ∉ d.map Prod.fst)
    (hnodup : (rows.map Prod.fst).Nodup) :
    rows.foldl (fun d r => dictAdd d r.1 (r.2.getD 0)) d
      = d ++ rows.map fun r => (r.1, r.2.getD 0) := by
  induction rows generalizing d with
  | nil => simp
  | cons r rows ih =>
      rw [List.foldl_cons, dictAdd_not_mem d r.1 _ (hdisj r (List.mem_cons_self r rows))]
      rw [List.map_cons] at hnodup
      have hr1 : r.1 ∉ rows.map Prod.fst := (List.nodup_cons.mp hnodup).1
      rw [ih (d ++ [(r.1, r.2.getD 0)])]
      · simp
      · intro q hq
        simp only [List.map_append, List.mem_append]
        rintro (hmem | hmem)
        · exact hdisj q (List.mem_cons_of_mem r hq) hmem
        · simp only [List.map_cons, List.map_nil, List.mem_singleton] at hmem
          exact hr1 (hmem ▸ List.mem_map.mpr ⟨q, hq, rfl⟩)
      · exact (List.nodup_cons.mp hnodup).2

/-- On a single contig with distinct sample ids, the accumulation dict
is the row list itself (`None` distances as 0). -/
theorem distanceDict_single (rows : List (ℕ × Option ℤ))
    (hnodup : (rows.map Prod.fst).Nodup) :
    distanceDict [rows] = rows.map fun r => (r.1, r.2.getD 0) := by
  rw [distanceDict, List.foldl_cons, List.foldl_nil,
    foldl_dictAdd_nodup rows [] (by simp) hnodup]
  simp

theorem accAdd_invariant (samid : ℕ) (ms : List ℕ) (acc : List ℕ)
    (h : acc.Nodup ∧ samid ∉ acc) :
    (ms.foldl (fun a r => if r ≠ samid ∧ r ∉ a then a ++ [r] else a) acc).Nodup
      ∧ samid ∉ (ms.foldl (fun a r => if r ≠ samid ∧ r ∉ a then a ++ [r] else a) acc) := by
  induction ms generalizing acc with
  | nil => exact h
  | cons r ms ih =>
      rw [List.foldl_cons]
      by_cases hr : r ≠ samid ∧ r ∉ acc
      · rw [if_pos hr]
        refine ih _ ⟨?_, ?_⟩
        · simpa [List.nodup_append] using ⟨h.1, hr.2⟩
        · simp only [List.mem_append, List.mem_singleton]
          rintro (hmem | hmem)
          · exact h.2 hmem
          · exact hr.1 hmem.symm
      · rw [if_neg hr]
        exact ih _ h

/-- The accumulated close-sample set has no duplicates and never the
query sample. -/
theorem accumulateClose_invariant (k samid : ℕ) (mls : List (List ℕ)) (acc : List ℕ)
    (h : acc.Nodup ∧ samid ∉ acc) :
    (accumulateClose k samid mls acc).Nodup ∧ samid ∉ accumulateClose k samid mls acc := by
  induction mls generalizing acc with
  | nil => exact h
  | cons ms rest ih =>
      rw [accumulateClose]
      split_ifs with hlen
      · exact accAdd_invariant samid ms acc h
      · exact ih _ (accAdd_invariant samid ms acc h)

theorem extendTies_no_ties (r rest : List (ℕ × ℤ)) (c : ℤ)
    (hr : r.getLast?.map Prod.snd = some c) (hne : ∀ q ∈ rest, q.2 ≠ c) :
    extendTies r rest = r := by
  induction rest generalizing r with
  | nil => rfl
  | cons p rest ih =>
      rw [extendTies, List.foldl_cons, if_neg, ← extendTies]
      · exact ih r hr fun q hq => hne q (List.mem_cons_of_mem p hq)
      · rw [hr]
        intro hc
        exact hne p (List.mem_cons_self p rest) (Option.some_injective _ hc).symm

/-- For a sorted remainder whose distances all dominate the cutoff, the
tie-extension loop appends exactly the leading run of cutoff ties. -/
theorem extendTies_characterization (r rest : List (ℕ × ℤ)) (c : ℤ)
    (hr : r.getLast?.map Prod.snd = some c)
    (hsorted : rest.Pairwise distLE) (hge : ∀ p ∈ rest, c ≤ p.2) :
    extendTies r rest = r ++ rest.takeWhile fun p => decide (p.2 = c) := by
  induction rest generalizing r with
  | nil => simp [extendTies]
  | cons p rest ih =>
      by_cases hp : p.2 = c
      · rw [extendTies, List.foldl_cons, if_pos (by rw [hr, hp]), ← extendTies]
        rw [ih (r ++ [p]) (by rw [List.getLast?_concat]; simp [hp])
            (List.Pairwise.of_cons hsorted)
            (fun q hq => hge q (List.mem_cons_of_mem p hq))]
        rw [List.takeWhile_cons, if_pos (by simp [hp])]
        simp
      · rw [extendTies, List.foldl_cons, if_neg, ← extendTies]
        · rw [extendTies_no_ties r rest c hr, List.takeWhile_cons,
            if_neg (by simp [hp])]
          · simp
          · intro q hq hqc
            have h1 : c ≤ p.2 := hge p (List.mem_cons_self p rest)
            have h2 : p.2 ≤ q.2 := (List.rel_of_pairwise_cons hsorted hq : distLE p q)
            exact hp (le_antisymm (hqc ▸ h2) h1)
        · rw [hr]
          intro hc
          exact hp (Option.some_injective _ hc).symm

theorem pairwise_le_getLast? (l : List (ℕ × ℤ)) (h : l.Pairwise distLE)
    (p : ℕ × ℤ) (hp : p ∈ l) (q : ℕ × ℤ) (hq : l.getLast? = some q) :
    p.2 ≤ q.2 := by
  induction l with
  | nil => cases hp
  | cons a l ih =>
      cases l with
      | nil =>
          simp only [List.getLast?_singleton, Option.some.injEq] at hq
          simp only [List.mem_singleton] at hp
          rw [hp, hq]
      | cons b l2 =>
          rw [List.getLast?_cons_cons] at hq
          rcases List.mem_cons.mp hp with rfl | hmem
          · have hqmem : q ∈ b :: l2 := by
              obtain ⟨h0, hq2⟩ := List.mem_getLast?_eq_getLast (Option.mem_def.mpr hq)
              rw [hq2]
              exact List.getLast_mem h0
            exact List.rel_of_pairwise_cons h hqmem
          · exact ih (List.Pairwise.of_cons h) hmem hq

/-- In a sorted list whose distances dominate `c`, every entry with
distance `c` sits in the leading `takeWhile` run. -/
theorem mem_takeWhile_of_sorted (l : List (ℕ × ℤ)) (c : ℤ) (hsorted : l.Pairwise distLE)
    (hge : ∀ p ∈ l, c ≤ p.2) (p : ℕ × ℤ) (hp : p ∈ l) (hpc : p.2 = c) :
    p ∈ l.takeWhile fun q => decide (q.2 = c) := by
  induction l with
  | nil => cases hp
  | cons q l ih =>
      by_cases hq : q.2 = c
      · rw [List.takeWhile_cons, if_pos (by simp [hq])]
        rcases List.mem_cons.mp hp with rfl | hmem
        · exact List.mem_cons_self _ _
        · exact List.mem_cons_of_mem _
            (ih (List.Pairwise.of_cons hsorted)
              (fun r hr => hge r (List.mem_cons_of_mem q hr)) hmem)
      · exfalso
        rcases List.mem_cons.mp hp with rfl | hmem
        · exact hq hpc
        · have h1 : c ≤ q.2 := hge q (List.mem_cons_self q l)
          have h2 : q.2 ≤ p.2 := (List.rel_of_pairwise_cons hsorted hmem : distLE q p)
          exact hq (le_antisymm (hpc ▸ h2) h1)

theorem countP_key_le_one (pool : List ℕ) (h : pool.Nodup) (samid : ℕ) :
    pool.countP (fun s => decide (s = samid)) ≤ 1 := by
  induction pool with
  | nil => simp
  | cons a pool ih =>
      rw [List.countP_cons]
      by_cases ha : a = samid
      · subst ha
        have hz : pool.countP (fun s => decide (s = a)) = 0 :=
          List.countP_eq_zero.mpr fun b hb => by
            simp only [decide_eq_true_eq]
            exact fun hba => (List.nodup_cons.mp h).1 (hba ▸ hb)
        simp [hz]
      · simp only [decide_eq_true_eq, ha, if_false]
        simpa using ih (List.nodup_cons.mp h).2

theorem length_filter_key_ge (l : List (ℕ × ℤ)) (samid : ℕ) :
    l.length ≤ (l.filter fun p => p.1 ≠ samid).length
      + l.countP fun p => decide (p.1 = samid) := by
  induction l with
  | nil => simp
  | cons q l ih =>
      rw [List.filter_cons, List.countP_cons, List.length_cons]
      by_cases hq : q.1 = samid
      · rw [if_neg (by simp [hq]), if_pos (by simp [hq])]
        omega
      · rw [if_pos (by simp [hq]), if_neg (by simp [hq]), List.length_cons]
        omega

theorem closePool_nodup (memberLists : List (List ℕ)) (relevant : List ℕ)
    (samid k : ℕ) (hrel : relevant.Nodup) :
    (closePool memberLists relevant samid k).Nodup := by
  rw [closePool]
  split_ifs with h
  · exact hrel
  · exact (accumulateClose_invariant k samid memberLists [] (by simp)).1

/-- The take-`k`-and-extend-ties selection on a duplicate-free pool of at
least `k` samples: everything returned is within the `k`-th smallest
distance, every non-query pool sample tying that distance is returned, at
least `k − 1` entries survive the final query-sample filter, and all `k`
survive when the query is not in the pool. -/
theorem select_spec (pool : List ℕ) (distTo : ℕ → ℤ) (samid k : ℕ)
    (dl res : List (ℕ × ℤ))
    (hk : 1 ≤ k) (hnodup : pool.Nodup) (hlen : k ≤ pool.length)
    (hdl : dl = get_distances [pool.map fun s => (s, some (distTo s))])
    (hres : res = (extendTies (dl.take k) (dl.drop k)).filter fun p => p.1 ≠ samid) :
    (∀ p ∈ res, p.2 ≤ kthCutoff dl k)
      ∧ (∀ s ∈ pool, s ≠ samid → distTo s = kthCutoff dl k → (s, distTo s) ∈ res)
      ∧ k - 1 ≤ res.length
      ∧ (samid ∉ pool → k ≤ res.length) := by
  have hkeys : ((pool.map fun s => (s, some (distTo s))).map Prod.fst).Nodup := by
    rw [List.map_map]
    have hm : (Prod.fst ∘ fun s => (s, some (distTo s))) = @id ℕ := rfl
    rw [hm, List.map_id]
    exact hnodup
  have hdict : distanceDict [pool.map fun s => (s, some (distTo s))]
      = pool.map fun s => (s, distTo s) := by
    rw [distanceDict_single _ hkeys, List.map_map]
    rfl
  have hperm : dl.Perm (pool.map fun s => (s, distTo s)) := by
    rw [hdl, get_distances, hdict]
    exact List.perm_insertionSort distLE _
  have hsorted : dl.Pairwise distLE := by
    rw [hdl]
    exact List.sorted_insertionSort distLE _
  have hdllen : dl.length = pool.length := by rw [hperm.length_eq, List.length_map]
  have hkdl : k ≤ dl.length := by omega
  have hrlen : (dl.take k).length = k := by rw [List.length_take]; omega
  have hrne : dl.take k ≠ [] := List.length_pos.mp (by omega)
  obtain ⟨lp, hlp⟩ : ∃ lp, (dl.take k).getLast? = some lp :=
    ⟨_, List.getLast?_eq_getLast_of_ne_nil hrne⟩
  have hcut : kthCutoff dl k = lp.2 := by
    rw [kthCutoff, List.getLastD_eq_getLast?, hlp]
    rfl
  have hrmap : (dl.take k).getLast?.map Prod.snd = some (kthCutoff dl k) := by
    rw [hlp, hcut]
    rfl
  have hrsorted : (dl.take k).Pairwise distLE :=
    List.Pairwise.sublist (List.take_sublist k dl) hsorted
  have hrestsorted : (dl.drop k).Pairwise distLE :=
    List.Pairwise.sublist (List.drop_sublist k dl) hsorted
  have hlpmem : lp ∈ dl.take k := by
    obtain ⟨h0, h2⟩ := List.mem_getLast?_eq_getLast (Option.mem_def.mpr hlp)
    rw [h2]
    exact List.getLast_mem h0
  have hge : ∀ p ∈ dl.drop k, kthCutoff dl k ≤ p.2 := by
    intro p hp
    rw [hcut]
    have hsplit : List.Pairwise distLE (List.take k dl ++ List.drop k dl) := by
      rw [List.take_append_drop]
      exact hsorted
    exact (List.pairwise_append.mp hsplit).2.2 lp hlpmem p hp
  have hchar : extendTies (dl.take k) (dl.drop k)
      = dl.take k ++ (dl.drop k).takeWhile fun q => decide (q.2 = kthCutoff dl k) :=
    extendTies_characterization _ _ _ hrmap hrestsorted hge
  have hres0_sub : List.Sublist (extendTies (dl.take k) (dl.drop k)) dl := by
    rw [hchar]
    conv_rhs => rw [← List.take_append_drop k dl]
    exact List.Sublist.append_left (List.takeWhile_sublist _) (dl.take k)
  refine ⟨?_, ?_, ?_, ?_⟩
  · intro p hp
    have hp0 : p ∈ extendTies (dl.take k) (dl.drop k) := (List.mem_filter.mp (hres ▸ hp)).1
    rw [hchar] at hp0
    rcases List.mem_append.mp hp0 with hmem | hmem
    · rw [hcut]
      exact pairwise_le_getLast? _ hrsorted p hmem lp hlp
    · have hq := List.mem_takeWhile_imp hmem
      simp only [decide_eq_true_eq] at hq
      exact le_of_eq hq
  · intro s hs hsne hsc
    have hmem_dl : (s, distTo s) ∈ dl := hperm.mem_iff.mpr (List.mem_map.mpr ⟨s, hs, rfl⟩)
    rw [← List.take_append_drop k dl] at hmem_dl
    rw [hres]
    rcases List.mem_append.mp hmem_dl with hmem | hmem
    · refine List.mem_filter.mpr ⟨?_, by simpa using hsne⟩
      rw [hchar]
      exact List.mem_append_left _ hmem
    · refine List.mem_filter.mpr ⟨?_, by simpa using hsne⟩
      rw [hchar]
      exact List.mem_append_right _
        (mem_takeWhile_of_sorted _ _ hrestsorted hge (s, distTo s) hmem (by simpa using hsc))
  · have hres0len : k ≤ (extendTies (dl.take k) (dl.drop k)).length := by
      rw [hchar, List.length_append]
      omega
    have hcount_dl : dl.countP (fun p => decide (p.1 = samid)) ≤ 1 := by
      rw [hperm.countP_eq, List.countP_map]
      calc pool.countP ((fun p : ℕ × ℤ => decide (p.1 = samid)) ∘ fun s => (s, distTo s))
          = pool.countP fun s => decide (s = samid) := rfl
        _ ≤ 1 := countP_key_le_one pool hnodup samid
    have hcount0 : (extendTies (dl.take k) (dl.drop k)).countP
        (fun p => decide (p.1 = samid)) ≤ 1 :=
      le_trans (List.Sublist.countP_le _ hres0_sub) hcount_dl
    have hfl := length_filter_key_ge (extendTies (dl.take k) (dl.drop k)) samid
    rw [hres]
    omega
  · intro hsam
    have hres0len : k ≤ (extendTies (dl.take k) (dl.drop k)).length := by
      rw [hchar, List.length_append]
      omega
    have hcnt0 : pool.countP (fun s => decide (s = samid)) = 0 :=
      List.countP_eq_zero.mpr fun b hb => by
        simp only [decide_eq_true_eq]
        rintro rfl
        exact hsam hb
    have hcount_dl : dl.countP (fun p => decide (p.1 = samid)) = 0 := by
      rw [hperm.countP_eq, List.countP_map]
      calc pool.countP ((fun p : ℕ × ℤ => decide (p.1 = samid)) ∘ fun s => (s, distTo s))
          = pool.countP fun s => decide (s = samid) := rfl
        _ = 0 := hcnt0
    have hcount0 : (extendTies (dl.take k) (dl.drop k)).countP
        (fun p => decide (p.1 = samid)) = 0 :=
      Nat.le_zero.mp (hcount_dl ▸ List.Sublist.countP_le _ hres0_sub)
    have hfl := length_filter_key_ge (extendTies (dl.take k) (dl.drop k)) samid
    rw [hres]
    omega

/-- C9 (amended).  With a duplicate-free relevant pool and at least `k`
samples in the pool the code distances against: every returned neighbour
is within the `k`-th smallest pool distance, every non-query pool sample
tying that distance is returned, at least `k − 1` neighbours are returned
— and at least `k` whenever the same-cluster accumulation reached `k`
candidates (the non-fall-back path); in the fall-back path the pool
contains the query itself, which occupies one of the `k` slots and is
filtered from the output afterwards. -/
theorem get_closest_samples_spec
    (memberLists : List (List ℕ)) (relevant : List ℕ) (distTo : ℕ → ℤ) (samid k : ℕ)
    (hk : 1 ≤ k) (hrel : relevant.Nodup)
    (hpool : k ≤ (closePool memberLists relevant samid k).length) :
    (∀ p ∈ get_closest_samples memberLists relevant distTo samid k,
        p.2 ≤ kthCutoff (closestDl memberLists relevant distTo samid k) k)
      ∧ (∀ s ∈ closePool memberLists relevant samid k, s ≠ samid →
          distTo s = kthCutoff (closestDl memberLists relevant distTo samid k) k →
          (s, distTo s) ∈ get_closest_samples memberLists relevant distTo samid k)
      ∧ k - 1 ≤ (get_closest_samples memberLists relevant distTo samid k).length
      ∧ (k ≤ (accumulateClose k samid memberLists []).length →
          k ≤ (get_closest_samples memberLists relevant distTo samid k).length) := by
  have h := select_spec (closePool memberLists relevant samid k) distTo samid k
    (closestDl memberLists relevant distTo samid k)
    (get_closest_samples memberLists relevant distTo samid k)
    hk (closePool_nodup memberLists relevant samid k hrel) hpool
    rfl rfl
  refine ⟨h.1, h.2.1, h.2.2.1, ?_⟩
  intro hclose
  apply h.2.2.2
  simp only [closePool]
  rw [if_neg (by omega)]
  exact (accumulateClose_invariant k samid memberLists [] (by simp)).2

/-- C9 (counterexample).  Query sample 1 is alone in its clusters at all
seven levels, so the fall-back scan runs over the relics `[1, 2, 3, 4]`
(self-distance 0, the rest at distances 1, 2, 3).  With `k = 3` the
query occupies one of the three slots, is filtered afterwards, and only
two neighbours come back although three other clustered, non-ignored
samples exist. -/
theorem get_closest_samples_fallback_counterexample :
    get_closest_samples [[1], [1], [1], [1], [1], [1], [1]] [1, 2, 3, 4]
        (fun s => (s : ℤ) - 1) 1 3
      = [(2, 1), (3, 2)]
      ∧ ([1, 2, 3, 4].filter fun s => s ≠ 1).length = 3
      ∧ ¬ 3 ≤ (get_closest_samples [[1], [1], [1], [1], [1], [1], [1]] [1, 2, 3, 4]
          (fun s => (s : ℤ) - 1) 1 3).length :=
  ⟨by decide, by decide, by decide⟩

/-- Witness for C9 at a concrete non-fall-back query: sample 1's level-0
cluster holds `{1, 2, 3, 4}` and `k = 2` neighbours are requested. -/
theorem get_closest_samples_spec_witness :
    ((2 : ℕ), (2 : ℤ)).2
        ≤ kthCutoff (closestDl [[1, 2, 3, 4], [], [], [], [], [], []] [1, 2, 3, 4]
            (fun s => (s : ℤ)) 1 2) 2
      ∧ 2 ≤ (get_closest_samples [[1, 2, 3, 4], [], [], [], [], [], []] [1, 2, 3, 4]
          (fun s => (s : ℤ)) 1 2).length := by
  obtain ⟨h1, h2, h3, h4⟩ := get_closest_samples_spec
    [[1, 2, 3, 4], [], [], [], [], [], []] [1, 2, 3, 4] (fun s => (s : ℤ)) 1 2
    (by decide) (by decide) (by decide)
  exact ⟨h1 (2, 2) (by decide), h4 (by decide)⟩

end Snapper3
